import Mathlib

/- Verification of the BillTracer diff engine (src/app.py, src/explorer.py).

   Modelling conventions:
   * Python strings are `String` / `List Char`; Python floats are `ℚ` (all the
     float constants of the source, 0.5 / 0.9 / 0.777, are exactly
     representable, and the arithmetic used is ratios of small integers).
   * `difflib.SequenceMatcher` is embedded by its documented junk-free
     semantics (recursive longest-matching-block, ties broken towards the
     earliest position in `a`, then in `b`, adjacent blocks coalesced, and a
     terminating sentinel block).  The junk heuristics (`autojunk`, which only
     affects sequences of length ≥ 200) are not modelled: `diff_magnitude` in
     app.py passes `autojunk=False`, and the theorems proved about the redline
     do not depend on which matching blocks are selected.
   * Python's whitespace class is modelled by the four ASCII whitespace
     characters that occur in the inputs (space, tab, CR, LF); `str.lower`
     is modelled on ASCII letters. -/

/-- Whitespace for `\s`, `str.strip()` and `str.split()` (ASCII fragment). -/
def isPyWs (c : Char) : Bool := c = ' ' || c = '\t' || c = '\r' || c = '\n'

def trimLeftWs (l : List Char) : List Char := l.dropWhile isPyWs

def trimRightWs (l : List Char) : List Char := (l.reverse.dropWhile isPyWs).reverse

/-- Python `str.strip()`. -/
def pyStrip (l : List Char) : List Char := trimRightWs (trimLeftWs l)

def pyStripS (s : String) : String := String.mk (pyStrip s.data)

/-- ASCII `str.lower()`. -/
def lowerChar (c : Char) : Char :=
  if 65 ≤ c.toNat ∧ c.toNat ≤ 90 then Char.ofNat (c.toNat + 32) else c

def toLowerL (l : List Char) : List Char := l.map lowerChar

/-- Code-point lexicographic order on strings (Python's `<=` on `str`). -/
def lexLeC : List Char → List Char → Bool
  | [], _ => true
  | _ :: _, [] => false
  | a :: as, b :: bs => if a = b then lexLeC as bs else decide (a.toNat < b.toNat)

/- ----------------------------------------------------------------- -/
/- difflib.SequenceMatcher (junk-free), generic over the token type. -/
/- ----------------------------------------------------------------- -/

structure BMatch where
  i : Nat
  j : Nat
  size : Nat
deriving DecidableEq, Repr

/-- Recursion core of `matchLen`: the first argument is the remaining width
`ahi - i` of the `a`-window. -/
def matchLenGo {α : Type} [DecidableEq α] (a b : List α) (bhi : Nat) :
    Nat → Nat → Nat → Nat
  | 0, _, _ => 0
  | fuel + 1, i, j =>
    if j < bhi ∧ (a.get? i).isSome ∧ a.get? i = b.get? j then
      matchLenGo a b bhi fuel (i + 1) (j + 1) + 1
    else 0

/-- Length of the common run of `a` and `b` starting at `(i, j)`, clipped to
the windows `[·, ahi)` / `[·, bhi)`. -/
def matchLen {α : Type} [DecidableEq α] (a b : List α) (i j ahi bhi : Nat) : Nat :=
  matchLenGo a b bhi (ahi - i) i j

def flmStep {α : Type} [DecidableEq α] (a b : List α) (ahi bhi i : Nat)
    (best : BMatch) (j : Nat) : BMatch :=
  if best.size < matchLen a b i j ahi bhi then ⟨i, j, matchLen a b i j ahi bhi⟩ else best

/-- `SequenceMatcher.find_longest_match` on the window
`a[alo:ahi] × b[blo:bhi]` (no junk): the longest matching block, ties broken
towards the smallest `i`, then the smallest `j`. -/
def findLongestMatch {α : Type} [DecidableEq α] (a b : List α)
    (alo ahi blo bhi : Nat) : BMatch :=
  (List.range' alo (ahi - alo)).foldl
    (fun best i => (List.range' blo (bhi - blo)).foldl (flmStep a b ahi bhi i) best)
    ⟨alo, blo, 0⟩

/-- The recursive block collection of `get_matching_blocks` (in order;
`fuel` is an upper bound on the recursion depth, always sufficient at the
top-level call). -/
def matchingBlocksGo {α : Type} [DecidableEq α] (a b : List α) :
    Nat → Nat → Nat → Nat → Nat → List BMatch
  | 0, _, _, _, _ => []
  | fuel + 1, alo, ahi, blo, bhi =>
    let m := findLongestMatch a b alo ahi blo bhi
    if m.size = 0 then []
    else
      matchingBlocksGo a b fuel alo m.i blo m.j ++
        m :: matchingBlocksGo a b fuel (m.i + m.size) ahi (m.j + m.size) bhi

/-- The adjacent-block coalescing pass of `get_matching_blocks`, ending with
the `(la, lb, 0)` sentinel. -/
def coalesceGo (la lb : Nat) : Nat → Nat → Nat → List BMatch → List BMatch
  | i1, j1, k1, [] => (if k1 ≠ 0 then [⟨i1, j1, k1⟩] else []) ++ [⟨la, lb, 0⟩]
  | i1, j1, k1, m :: rest =>
    if i1 + k1 = m.i ∧ j1 + k1 = m.j then coalesceGo la lb i1 j1 (k1 + m.size) rest
    else (if k1 ≠ 0 then [⟨i1, j1, k1⟩] else []) ++ coalesceGo la lb m.i m.j m.size rest

/-- `SequenceMatcher.get_matching_blocks`. -/
def matchingBlocks {α : Type} [DecidableEq α] (a b : List α) : List BMatch :=
  coalesceGo a.length b.length 0 0 0
    (matchingBlocksGo a b (a.length + b.length + 1) 0 a.length 0 b.length)

inductive DTag
  | equal
  | delete
  | insert
  | replace
deriving DecidableEq, Repr

structure Opcode where
  tag : DTag
  i1 : Nat
  i2 : Nat
  j1 : Nat
  j2 : Nat
deriving DecidableEq, Repr

/-- The opcode loop of `SequenceMatcher.get_opcodes` over the block list. -/
def opcodesLoop : Nat → Nat → List BMatch → List Opcode
  | _, _, [] => []
  | i, j, m :: rest =>
    (if i < m.i ∧ j < m.j then [⟨DTag.replace, i, m.i, j, m.j⟩]
     else if i < m.i then [⟨DTag.delete, i, m.i, j, m.j⟩]
     else if j < m.j then [⟨DTag.insert, i, m.i, j, m.j⟩]
     else []) ++
    (if m.size ≠ 0 then [⟨DTag.equal, m.i, m.i + m.size, m.j, m.j + m.size⟩] else []) ++
    opcodesLoop (m.i + m.size) (m.j + m.size) rest

/-- `SequenceMatcher.get_opcodes`. -/
def getOpcodes {α : Type} [DecidableEq α] (a b : List α) : List Opcode :=
  opcodesLoop 0 0 (matchingBlocks a b)

def blocksMatchSum (blocks : List BMatch) : Nat :=
  blocks.foldl (fun s m => s + m.size) 0

/-- `SequenceMatcher.ratio()`: `2*M / (len a + len b)`, `1.0` when both empty. -/
def smRatioL {α : Type} [DecidableEq α] (a b : List α) : ℚ :=
  if a.length + b.length = 0 then 1
  else (2 * (blocksMatchSum (matchingBlocks a b) : ℚ)) / ((a.length : ℚ) + (b.length : ℚ))

/- ---------------------------------------------- -/
/- Tokenisation (app.py TOKEN_RE and the ratio    -/
/- tokeniser `_tokenize_for_ratio`).              -/
/- ---------------------------------------------- -/

/-- `TOKEN_RE.findall`: maximal runs of non-whitespace / whitespace, so that
the concatenation of the tokens is the original string. -/
def tokenizeWs : List Char → List (List Char)
  | [] => []
  | c :: cs =>
    match tokenizeWs cs with
    | [] => [[c]]
    | [] :: rs => [c] :: rs
    | (d :: r) :: rs =>
      if isPyWs c = isPyWs d then (c :: d :: r) :: rs else [c] :: (d :: r) :: rs

def tokenize (s : String) : List (List Char) := tokenizeWs s.data

/-- Collapse every maximal run of `p`-characters to the single character
`rep`; `inRun` records whether the previous character was in a run. -/
def collapseRuns (p : Char → Bool) (rep : Char) : Bool → List Char → List Char
  | _, [] => []
  | inRun, c :: cs =>
    if p c then
      if inRun then collapseRuns p rep true cs
      else rep :: collapseRuns p rep true cs
    else c :: collapseRuns p rep false cs

/-- `re.sub(r"\s+", " ", ·)`: collapse every whitespace run to one space. -/
def collapseWs (l : List Char) : List Char := collapseRuns isPyWs ' ' false l

/-- Trim, then collapse every whitespace run to a single space
(`re.sub(r"\s+", " ", s.strip())`). -/
def wsCanon (l : List Char) : List Char := collapseWs (pyStrip l)

def wsCanonS (s : String) : String := String.mk (wsCanon s.data)

/-- Python `str.split(sep)` for a one-character separator. -/
def splitOnChar (sep : Char) : List Char → List (List Char)
  | [] => [[]]
  | c :: cs =>
    if c = sep then [] :: splitOnChar sep cs
    else
      match splitOnChar sep cs with
      | [] => [[c]]
      | p :: ps => (c :: p) :: ps

/-- app.py `_tokenize_for_ratio`. -/
def tokenizeForRatio (s : String) : List (List Char) :=
  let c := wsCanon s.data
  if c = [] then [] else splitOnChar ' ' c

/-- The accumulation loop of app.py `diff_magnitude`: `(equal, total)` where
`equal` sums the `Equal` widths and `total` sums `max` of the two widths. -/
def magFold (ops : List Opcode) : Nat × Nat :=
  ops.foldl
    (fun acc op =>
      (acc.1 + (if op.tag = DTag.equal then op.i2 - op.i1 else 0),
       acc.2 + max (op.i2 - op.i1) (op.j2 - op.j1)))
    (0, 0)

/-- app.py `diff_magnitude` (`SequenceMatcher` with `autojunk=False`). -/
def diff_magnitude (a b : String) : Nat × ℚ :=
  let ops := getOpcodes (tokenizeForRatio a) (tokenizeForRatio b)
  let et := magFold ops
  (et.2 - et.1, if et.2 = 0 then 1 else (et.1 : ℚ) / (et.2 : ℚ))

/- ------------------------------------- -/
/- The redline (`diff_words_preserve_ws`) -/
/- ------------------------------------- -/

inductive RTag
  | eq
  | del
  | ins
deriving DecidableEq, Repr

structure RSpan where
  tag : RTag
  text : List Char
deriving DecidableEq, Repr

def cmap {α β : Type} (f : α → List β) (l : List α) : List β := (l.map f).flatten

/-- `"".join(toks[i:k])`. -/
def segTok (l : List (List Char)) (i k : Nat) : List Char :=
  ((l.drop i).take (k - i)).flatten

/-- The span(s) emitted for one opcode by `diff_words_preserve_ws` (the text
content, before HTML escaping and markup). -/
def opSpan (aT bT : List (List Char)) (op : Opcode) : List RSpan :=
  match op.tag with
  | DTag.equal => [⟨RTag.eq, segTok aT op.i1 op.i2⟩]
  | DTag.delete => [⟨RTag.del, segTok aT op.i1 op.i2⟩]
  | DTag.insert => [⟨RTag.ins, segTok bT op.j1 op.j2⟩]
  | DTag.replace => [⟨RTag.del, segTok aT op.i1 op.i2⟩, ⟨RTag.ins, segTok bT op.j1 op.j2⟩]

/-- The redline of `diff_words_preserve_ws` as a span sequence. -/
def redlineSpans (a b : String) : List RSpan :=
  cmap (opSpan (tokenize a) (tokenize b)) (getOpcodes (tokenize a) (tokenize b))

/-- `html.escape(·, quote=False)` on one character. -/
def escChar (c : Char) : List Char :=
  if c = '&' then "&amp;".data
  else if c = '<' then "&lt;".data
  else if c = '>' then "&gt;".data
  else [c]

def escL (l : List Char) : List Char := cmap escChar l

def esc (s : String) : String := String.mk (escL s.data)

def renderSpan (sp : RSpan) : List Char :=
  match sp.tag with
  | RTag.eq => escL sp.text
  | RTag.del => "<del>".data ++ escL sp.text ++ "</del>".data
  | RTag.ins => "<ins>".data ++ escL sp.text ++ "</ins>".data

/-- app.py / explorer.py `diff_words_preserve_ws` (the rendered markup). -/
def diff_words_preserve_ws (a b : String) : String :=
  String.mk (cmap renderSpan (redlineSpans a b))

def bSpanText (sp : RSpan) : List Char :=
  match sp.tag with
  | RTag.ins => []
  | _ => sp.text

def aSpanText (sp : RSpan) : List Char :=
  match sp.tag with
  | RTag.del => []
  | _ => sp.text

/-- Concatenation of the `Equal` and `Deleted` span texts. -/
def beforeChars (spans : List RSpan) : List Char := cmap bSpanText spans

/-- Concatenation of the `Equal` and `Inserted` span texts. -/
def afterChars (spans : List RSpan) : List Char := cmap aSpanText spans

/- ------------------------------------------------ -/
/- Keyword classification (`categorize_change` and  -/
/- `APPROPS_HINTS`).                                -/
/- ------------------------------------------------ -/

def isWordChar (c : Char) : Bool := c.isAlphanum || c = '_'

def isWordOpt : Option Char → Bool
  | none => false
  | some c => isWordChar c

def headIsWord : List Char → Bool
  | [] => false
  | c :: _ => isWordChar c

def headIsDigit : List Char → Bool
  | [] => false
  | c :: _ => c.isDigit

def headIsPyWs : List Char → Bool
  | [] => false
  | c :: _ => isPyWs c

def headIsNl : List Char → Bool
  | [] => false
  | c :: _ => c = '\n'

/-- Match a literal, returning the remaining input. -/
def litFrom : List Char → List Char → Option (List Char)
  | [], l => some l
  | _ :: _, [] => none
  | p :: ps, c :: cs => if c = p then litFrom ps cs else none

/-- Match `\b<w>` at the current position; with `rb` also require a trailing
word boundary `\b`. -/
def mWord (w : String) (rb : Bool) (prev : Option Char) (l : List Char) : Bool :=
  !isWordOpt prev &&
    (match litFrom w.data l with
     | some rest => if rb then !headIsWord rest else true
     | none => false)

/-- Match a plain literal (no boundary). -/
def mLit (w : String) (_ : Option Char) (l : List Char) : Bool :=
  (litFrom w.data l).isSome

/-- Match `\$\s?\d`. -/
def mDollar (_ : Option Char) (l : List Char) : Bool :=
  match l with
  | '$' :: c :: rest => c.isDigit || (isPyWs c && headIsDigit rest)
  | _ => false

def altsM (fs : List (Option Char → List Char → Bool)) :
    Option Char → List Char → Bool :=
  fun p l => fs.any (fun f => f p l)

def reSearchGo (m : Option Char → List Char → Bool) : Option Char → List Char → Bool
  | prev, [] => m prev []
  | prev, c :: cs => m prev (c :: cs) || reSearchGo m (some c) cs

/-- `re.search(...)` as a Boolean: does the pattern match at some position? -/
def reSearch (m : Option Char → List Char → Bool) (l : List Char) : Bool :=
  reSearchGo m none l

/-- The `APPROPS_HINTS` regex alternatives (case handled by lowercasing;
`\bappropriat(?:e|ion|ed|ions)\b` and `\bfund(?:s|ing)?\b` are expanded into
their word alternatives). -/
def appropsM : Option Char → List Char → Bool :=
  altsM [mDollar,
    mWord "appropriate" true, mWord "appropriation" true,
    mWord "appropriated" true, mWord "appropriations" true,
    mWord "authorized to be appropriated" true,
    mWord "transfer" true, mWord "obligation" true, mWord "resciss" false,
    mWord "offset" true, mWord "grant" true,
    mWord "fund" true, mWord "funds" true, mWord "funding" true,
    mWord "remain available" true]

/-- `bool(APPROPS_HINTS.search(s))` (the regex is case-insensitive). -/
def appropHit (s : String) : Bool := reSearch appropsM (toLowerL s.data)

/-- Funding pattern of `categorize_change`
(`\$[\s]?\d|\bappropriat|\bauthorized to be appropriated|\bgrant\b|\bfund(?:s|ing)?`;
the optional suffix group imposes no constraint, so `\bfund` suffices). -/
def fundingM : Option Char → List Char → Bool :=
  altsM [mDollar, mWord "appropriat" false,
    mWord "authorized to be appropriated" false,
    mWord "grant" true, mWord "fund" false]

/-- Authority pattern (`\bshall\b|\bmay not\b|\bpenalt`). -/
def authorityM : Option Char → List Char → Bool :=
  altsM [mWord "shall" true, mWord "may not" true, mWord "penalt" false]

/-- Reporting pattern
(`not later than|\breport to congress|\bgao\b|\breporting requirement`). -/
def reportingM : Option Char → List Char → Bool :=
  altsM [mLit "not later than", mWord "report to congress" false,
    mWord "gao" true, mWord "reporting requirement" false]

/-- `t = (before + " " + after).lower()`. -/
def lowerConcat (before after : String) : List Char :=
  toLowerL (before.data ++ ' ' :: after.data)

/-- `sorted(tags)` for the tag set found in `t` (already lowercased). -/
def categorizeText (t : List Char) : List String :=
  (if reSearch authorityM t then ["Authority"] else []) ++
  (if reSearch fundingM t then ["Funding"] else []) ++
  (if reSearch reportingM t then ["Reporting"] else [])

/-- app.py / explorer.py `categorize_change`. -/
def categorize_change (before after : String) : List String :=
  categorizeText (lowerConcat before after)

/- ------------------------------- -/
/- Sections and `summarize_changes` -/
/- ------------------------------- -/

structure SecD where
  sec_id : String
  title : String
  body : String
deriving DecidableEq, Repr

structure ChangeRec where
  sec_id : String
  title : String
  status : String
  tags : List String
  is_approp : Bool
  redline : String
deriving DecidableEq, Repr

structure UnchRec where
  sec_id : String
  title : String
  body : String
deriving DecidableEq, Repr

structure Stats where
  added : Nat
  removed : Nat
  modified : Nat
  unchanged : Nat
deriving DecidableEq, Repr

def MIN_DIFF_TOKENS : Nat := 80

def MIN_EQUAL_RATIO_Q : ℚ := 777 / 1000

/-- Dictionary lookup (`dict.get`); section maps are association lists with
distinct keys (`index_by_id` builds them keyed by `sec_id`). -/
def lookupId (m : List (String × SecD)) (sid : String) : Option SecD :=
  (m.find? (fun p => p.1 == sid)).map Prod.snd

def index_by_id (sections : List SecD) : List (String × SecD) :=
  sections.map (fun s => (s.sec_id, s))

/-- The sort key `(len(x), x)` used for `all_ids` (`_sort_key`). -/
def idKeyLe (x y : String) : Prop :=
  x.length < y.length ∨ (x.length = y.length ∧ lexLeC x.data y.data = true)

instance : DecidableRel idKeyLe := fun x y => by
  unfold idKeyLe
  infer_instance

/-- The final sort key `(not is_approp, sec_id)` of the change list. -/
def recKeyLe (r1 r2 : ChangeRec) : Prop :=
  (if r1.is_approp then 0 else 1) < (if r2.is_approp then (0 : Nat) else 1) ∨
    ((if r1.is_approp then (0 : Nat) else 1) = (if r2.is_approp then 0 else 1) ∧
      lexLeC r1.sec_id.data r2.sec_id.data = true)

instance : DecidableRel recKeyLe := fun x y => by
  unfold recKeyLe
  infer_instance

def removedRec (sid : String) (o : SecD) : ChangeRec :=
  ⟨sid, o.title, "Removed", [], appropHit o.body,
    "<del>Section removed in newer version.</del>"⟩

def addedRec (sid : String) (n : SecD) : ChangeRec :=
  ⟨sid, n.title, "Added", categorize_change "" n.body, appropHit n.body,
    "<ins>" ++ esc n.body ++ "</ins>"⟩

/-- `new["title"] or old["title"]`. -/
def pickTitle (n o : SecD) : String := if n.title ≠ "" then n.title else o.title

def modifiedRec (sid : String) (o n : SecD) (A B : String) : ChangeRec :=
  ⟨sid, pickTitle n o, "Modified", categorize_change A B,
    appropHit (A ++ " " ++ B), diff_words_preserve_ws A B⟩

/-- One iteration of the `for sid in all_ids` loop of `summarize_changes`. -/
def stepSummarize (old new : List (String × SecD))
    (acc : List ChangeRec × Stats × List UnchRec) (sid : String) :
    List ChangeRec × Stats × List UnchRec :=
  match lookupId old sid, lookupId new sid with
  | some o, none =>
    (acc.1 ++ [removedRec sid o],
      ⟨acc.2.1.added, acc.2.1.removed + 1, acc.2.1.modified, acc.2.1.unchanged⟩,
      acc.2.2)
  | none, some n =>
    (acc.1 ++ [addedRec sid n],
      ⟨acc.2.1.added + 1, acc.2.1.removed, acc.2.1.modified, acc.2.1.unchanged⟩,
      acc.2.2)
  | some o, some n =>
    let A := pyStripS o.body
    let B := pyStripS n.body
    if A = B then
      (acc.1,
        ⟨acc.2.1.added, acc.2.1.removed, acc.2.1.modified, acc.2.1.unchanged + 1⟩,
        acc.2.2 ++ [⟨sid, pickTitle n o, A⟩])
    else
      if (diff_magnitude A B).1 < MIN_DIFF_TOKENS ∨
          (diff_magnitude A B).2 ≥ MIN_EQUAL_RATIO_Q then
        (acc.1,
          ⟨acc.2.1.added, acc.2.1.removed, acc.2.1.modified, acc.2.1.unchanged + 1⟩,
          acc.2.2 ++ [⟨sid, pickTitle n o, B⟩])
      else
        (acc.1 ++ [modifiedRec sid o n A B],
          ⟨acc.2.1.added, acc.2.1.removed, acc.2.1.modified + 1, acc.2.1.unchanged⟩,
          acc.2.2)
  | none, none => acc

/-- `sorted(set(old_by_id) | set(new_by_id), key=_sort_key)`. -/
def allIdsOf (old new : List (String × SecD)) : List String :=
  List.insertionSort idKeyLe ((old.map Prod.fst ++ new.map Prod.fst).dedup)

/-- app.py `summarize_changes`. -/
def summarize_changes (old new : List (String × SecD)) :
    List ChangeRec × Stats × List UnchRec :=
  let r := (allIdsOf old new).foldl (stepSummarize old new) ([], ⟨0, 0, 0, 0⟩, [])
  (List.insertionSort recKeyLe r.1, r.2.1, r.2.2)

/-- The Modified/Unchanged decision of `summarize_changes` for a section
present in both versions (bodies already stripped), with the two thresholds
as parameters. -/
def classify_pair (A B : String) (minTok : Nat) (minR : ℚ) : String :=
  if A = B then "Unchanged"
  else if (diff_magnitude A B).1 < minTok ∨ (diff_magnitude A B).2 ≥ minR then
    "Unchanged"
  else "Modified"

/- ------------------ -/
/- `sanitize_text`    -/
/- ------------------ -/

/-- `replace("\r\n","\n").replace("\r","\n").replace(" "," ")`. -/
def fixCrNbsp : List Char → List Char
  | [] => []
  | '\r' :: '\n' :: cs => '\n' :: fixCrNbsp cs
  | '\r' :: cs => '\n' :: fixCrNbsp cs
  | c :: cs => (if c = ' ' then ' ' else c) :: fixCrNbsp cs

def isSpTab (c : Char) : Bool := c = ' ' || c = '\t'

/-- `re.sub(r"[ \t]+", " ", ·)`. -/
def collapseSpTab (l : List Char) : List Char := collapseRuns isSpTab ' ' false l

def isPunct4 (c : Char) : Bool := c = ',' || c = '.' || c = ';' || c = ':'

def headIsPunct4 : List Char → Bool
  | [] => false
  | c :: _ => isPunct4 c

/-- Recursion core of `dropSpBeforePunct` (`fuel` bounds the number of steps
and is always sufficient at the wrapper's call). -/
def dropSpBeforePunctF : Nat → List Char → List Char
  | 0, l => l
  | _ + 1, [] => []
  | fuel + 1, c :: cs =>
    if c = ' ' ∧ headIsPunct4 (cs.dropWhile isPyWs) then
      (cs.dropWhile isPyWs).headD ' ' :: dropSpBeforePunctF fuel (cs.dropWhile isPyWs).tail
    else c :: dropSpBeforePunctF fuel cs

/-- `re.sub(r" \s*([,.;:])", r"\1", ·)`: a space, then any whitespace, then one
of `,.;:`, replaced by the punctuation mark alone. -/
def dropSpBeforePunct (l : List Char) : List Char :=
  dropSpBeforePunctF (l.length + 1) l

def dropWsAfterOpenF (o : Char) : Nat → List Char → List Char
  | 0, l => l
  | _ + 1, [] => []
  | fuel + 1, c :: cs =>
    if c = o ∧ headIsPyWs cs then o :: dropWsAfterOpenF o fuel (cs.dropWhile isPyWs)
    else c :: dropWsAfterOpenF o fuel cs

/-- `re.sub(r"\(\s+", "(")` (and the `[` analogue). -/
def dropWsAfterOpen (o : Char) (l : List Char) : List Char :=
  dropWsAfterOpenF o (l.length + 1) l

def dropWsBeforeCloseF (cl : Char) : Nat → List Char → List Char
  | 0, l => l
  | _ + 1, [] => []
  | fuel + 1, c :: cs =>
    if isPyWs c ∧ ((c :: cs).dropWhile isPyWs).headD ' ' = cl then
      cl :: dropWsBeforeCloseF cl fuel ((c :: cs).dropWhile isPyWs).tail
    else c :: dropWsBeforeCloseF cl fuel cs

/-- `re.sub(r"\s+\)", ")")` (and the `]` analogue); `cl` is `)` or `]`, never
a whitespace character. -/
def dropWsBeforeClose (cl : Char) (l : List Char) : List Char :=
  dropWsBeforeCloseF cl (l.length + 1) l

/-- `" ".join(buf)`. -/
def joinSp : List (List Char) → List Char
  | [] => []
  | [x] => x
  | x :: xs => x ++ ' ' :: joinSp xs

def joinNl : List (List Char) → List Char
  | [] => []
  | [x] => x
  | x :: xs => x ++ '\n' :: joinNl xs

/-- `re.search(r"[.;:)]\s*$", t)` for an already-stripped line `t`. -/
def endsCloser (t : List Char) : Bool :=
  match t.getLast? with
  | some c => c = '.' || c = ';' || c = ':' || c = ')'
  | none => false

/-- The line-rewrapping loop of `sanitize_text`. -/
def rewrapGo (buf out : List (List Char)) : List (List Char) → List (List Char)
  | [] => if buf ≠ [] then out ++ [joinSp buf] else out
  | ln :: lns =>
    let t := pyStrip ln
    if t = [] then
      if buf ≠ [] then rewrapGo [] (out ++ [joinSp buf] ++ [[]]) lns
      else rewrapGo [] (out ++ [[]]) lns
    else
      if endsCloser t then rewrapGo [] (out ++ [joinSp (buf ++ [t])]) lns
      else rewrapGo (buf ++ [t]) out lns

def isNlChar (c : Char) : Bool := c = '\n'

def collapseNl3F : Nat → List Char → List Char
  | 0, l => l
  | _ + 1, [] => []
  | fuel + 1, c :: cs =>
    if c = '\n' ∧ headIsNl cs ∧ headIsNl (cs.drop 1) then
      '\n' :: '\n' :: collapseNl3F fuel (cs.dropWhile isNlChar)
    else c :: collapseNl3F fuel cs

/-- `re.sub(r"\n{3,}", "\n\n", ·)`. -/
def collapseNl3 (l : List Char) : List Char := collapseNl3F (l.length + 1) l

/-- app.py / explorer.py `sanitize_text`. -/
def sanitize_text (s : String) : String :=
  let l1 := collapseSpTab (fixCrNbsp s.data)
  let l2 := dropSpBeforePunct l1
  let l3 := dropWsBeforeClose ')' (dropWsAfterOpen '(' l2)
  let l4 := dropWsBeforeClose ']' (dropWsAfterOpen '[' l3)
  let l5 := joinNl (rewrapGo [] [] (splitOnChar '\n' l4))
  String.mk (pyStrip (collapseNl3 l5))

/- ------------------ -/
/- `split_sections`   -/
/- ------------------ -/

def isIdSuffixChar (c : Char) : Bool := c.isAlpha || c = '-'

/-- Match `(?:SEC\.|Sec\.)\s+(\d+[A-Za-z\-]*)[.: ]` at the head of `l`:
returns the length of the whole match and the captured identifier. -/
def secHeadMatch (l : List Char) : Option (Nat × List Char) :=
  let kw : Option (List Char) :=
    match litFrom "SEC.".data l with
    | some rest => some rest
    | none => litFrom "Sec.".data l
  match kw with
  | none => none
  | some rest =>
    let ws := rest.takeWhile isPyWs
    if ws = [] then none
    else
      let r1 := rest.drop ws.length
      let digs := r1.takeWhile Char.isDigit
      if digs = [] then none
      else
        let r2 := r1.drop digs.length
        let sfx := r2.takeWhile isIdSuffixChar
        match r2.drop sfx.length with
        | t :: _ =>
          if t = '.' ∨ t = ':' ∨ t = ' ' then
            some (4 + ws.length + digs.length + sfx.length + 1, digs ++ sfx)
          else none
        | [] => none

/-- `SEC_RE.finditer` (multiline `^`-anchored, non-overlapping): list of
`(start, end, captured id)`. -/
def secScanGo : Nat → Bool → Nat → List Char → List (Nat × Nat × List Char)
  | 0, _, _, _ => []
  | _ + 1, _, _, [] => []
  | fuel + 1, atLS, pos, c :: cs =>
    if atLS then
      match secHeadMatch (c :: cs) with
      | some (len, gid) =>
        (pos, pos + len, gid) :: secScanGo fuel false (pos + len) ((c :: cs).drop len)
      | none => secScanGo fuel (c = '\n') (pos + 1) cs
    else secScanGo fuel (c = '\n') (pos + 1) cs

def secFinditer (l : List Char) : List (Nat × Nat × List Char) :=
  secScanGo (l.length + 1) true 0 l

/-- The title extraction
`re.search(r'^(?:SEC\.|Sec\.)\s+\d+[A-Za-z\-]*[.: ]\s*(.*)$', head)`:
`group(1)` is the head line after the header and any following whitespace. -/
def secTitleOf (head : List Char) : Option (List Char) :=
  match secHeadMatch head with
  | some (len, _) => some ((head.drop len).dropWhile isPyWs)
  | none => none

def takeLine (l : List Char) : List Char := l.takeWhile (fun c => c ≠ '\n')

/-- The per-match section construction of the `SEC.` branch. -/
def secBlocksGo (raw : List Char) : List (Nat × Nat × List Char) → List SecD
  | [] => []
  | (start, _, gid) :: rest =>
    let endPos :=
      match rest with
      | (s2, _, _) :: _ => s2
      | [] => raw.length
    let block := pyStrip ((raw.drop start).take (endPos - start))
    let head := takeLine block
    let title0 :=
      match secTitleOf head with
      | some t => pyStrip t
      | none => head
    let sid := String.mk gid
    ⟨sid,
      (if title0 = [] then "Section " ++ sid else String.mk title0),
      String.mk (pyStrip (block.drop head.length))⟩ :: secBlocksGo raw rest

def isUpperAZ (c : Char) : Bool := 65 ≤ c.toNat && c.toNat ≤ 90

def isRomanChar (c : Char) : Bool :=
  c = 'I' || c = 'V' || c = 'X' || c = 'L' || c = 'C'

def dashClass (c : Char) : Bool := c = '—' || c = '-'

/-- Match `KW\s+ID(?:\s*[—-].*)?$` at the head of `l` (`plus` selects between
a one-character id class and a `+`-repeated one); returns the match length. -/
def hdrMatchAt (kw : String) (letters : Char → Bool) (plus : Bool)
    (l : List Char) : Option Nat :=
  match litFrom kw.data l with
  | none => none
  | some rest =>
    let ws := rest.takeWhile isPyWs
    if ws = [] then none
    else
      let r0 := rest.drop ws.length
      let ids := if plus then r0.takeWhile letters else (r0.take 1).takeWhile letters
      if ids = [] then none
      else
        let r1 := r0.drop ids.length
        let base := kw.length + ws.length + ids.length
        let ws2 := r1.takeWhile isPyWs
        match r1.drop ws2.length with
        | d :: r3 =>
          if dashClass d then
            some (base + ws2.length + 1 + (takeLine r3).length)
          else if headIsNl r1 then some base
          else none
        | [] => if r1 = [] ∨ headIsNl r1 then some base else none

/-- Multiline finditer for the DIVISION/TITLE/SUBTITLE header patterns. -/
def hdrScanGo (kw : String) (letters : Char → Bool) (plus : Bool) :
    Nat → Bool → Nat → List Char → List (Nat × Nat)
  | 0, _, _, _ => []
  | _ + 1, _, _, [] => []
  | fuel + 1, atLS, pos, c :: cs =>
    if atLS then
      match hdrMatchAt kw letters plus (c :: cs) with
      | some len =>
        (pos, pos + len) :: hdrScanGo kw letters plus fuel false (pos + len) ((c :: cs).drop len)
      | none => hdrScanGo kw letters plus fuel (c = '\n') (pos + 1) cs
    else hdrScanGo kw letters plus fuel (c = '\n') (pos + 1) cs

/-- `f"{n:03d}"`. -/
def pad3 (n : Nat) : String :=
  let s := toString n
  if s.length ≥ 3 then s else if s.length = 2 then "0" ++ s else "00" ++ s

/-- `_split_by_matches`. -/
def splitByMatchesGo (raw : List Char) (pref : String) :
    Nat → List (Nat × Nat) → List SecD
  | _, [] => []
  | idx, (start, mEnd) :: rest =>
    let endPos :=
      match rest with
      | (s2, _) :: _ => s2
      | [] => raw.length
    let header := pyStrip ((raw.drop start).take (mEnd - start))
    let chunk := pyStrip ((raw.drop start).take (endPos - start))
    ⟨pref ++ pad3 (idx + 1), String.mk header,
      String.mk (pyStrip (chunk.drop header.length))⟩ ::
      splitByMatchesGo raw pref (idx + 1) rest

/-- app.py `split_sections`. -/
def split_sections (s : String) : List SecD :=
  let raw := s.data
  let sec := secFinditer raw
  if sec ≠ [] ∧ sec.length ≤ 800 then secBlocksGo raw sec
  else
    let dm := hdrScanGo "DIVISION" isUpperAZ false (raw.length + 1) true 0 raw
    if dm ≠ [] then splitByMatchesGo raw "DIV" 0 dm
    else
      let tm := hdrScanGo "TITLE" isRomanChar true (raw.length + 1) true 0 raw
      if tm ≠ [] then splitByMatchesGo raw "TITLE" 0 tm
      else
        let sm := hdrScanGo "SUBTITLE" isUpperAZ false (raw.length + 1) true 0 raw
        if sm ≠ [] then splitByMatchesGo raw "SUB" 0 sm
        else [⟨"ALL", "FULL TEXT", String.mk (pyStrip raw)⟩]

/- ---------------------------- -/
/- explorer.py `build_renumber_map` -/
/- ---------------------------- -/

/-- `difflib.SequenceMatcher(None, x, y).ratio()` on strings. -/
def smRatioS (x y : String) : ℚ := smRatioL x.data y.data

/-- The inner best-candidate loop of `build_renumber_map`. -/
def renumBest (used : List String) (oTitle : String)
    (new : List (String × SecD)) : Option String × ℚ :=
  new.foldl
    (fun b np =>
      if np.1 ∈ used then b
      else if b.2 < smRatioS oTitle np.2.title then (some np.1, smRatioS oTitle np.2.title)
      else b)
    (none, 0)

def renumStep (new : List (String × SecD))
    (acc : List (String × String) × List String) (op : String × SecD) :
    List (String × String) × List String :=
  let best := renumBest acc.2 op.2.title new
  if best.2 ≥ 9 / 10 then
    match best.1 with
    | some nid => (acc.1 ++ [(op.1, nid)], acc.2 ++ [nid])
    | none => acc
  else acc

/-- explorer.py `build_renumber_map`. -/
def build_renumber_map (old new : List (String × SecD)) : List (String × String) :=
  let oldIds := old.map Prod.fst
  let newIds := new.map Prod.fst
  if (((oldIds.filter (fun x => x ∈ newIds)).dedup.length : ℚ)) ≥
      (1 / 2) * ((min oldIds.length newIds.length : Nat) : ℚ) then []
  else (old.foldl (renumStep new) ([], [])).1

/- ------------------------------------------------------------- -/
/- Verification apparatus: structural invariants of block lists, -/
/- specification-side reformulations, and concrete test data.    -/
/- ------------------------------------------------------------- -/

/-- Blocks produced inside a window: ordered, inside the window, each block a
genuine match of `a` against `b`. -/
def SubChain {α : Type} (a b : List α) :
    Nat → Nat → Nat → Nat → List BMatch → Prop
  | i, j, ahi, bhi, [] => i ≤ ahi ∧ j ≤ bhi
  | i, j, ahi, bhi, m :: rest =>
    i ≤ m.i ∧ j ≤ m.j ∧ (∀ t, t < m.size → a.get? (m.i + t) = b.get? (m.j + t)) ∧
      SubChain a b (m.i + m.size) (m.j + m.size) ahi bhi rest

/-- A sentinel-terminated block list as consumed by the opcode loop: ordered,
in bounds, matching, ending exactly at the two sequence lengths. -/
def ChainOK {α : Type} (a b : List α) : Nat → Nat → List BMatch → Prop
  | i, j, [] => i = a.length ∧ j = b.length
  | i, j, m :: rest =>
    i ≤ m.i ∧ j ≤ m.j ∧ m.i + m.size ≤ a.length ∧ m.j + m.size ≤ b.length ∧
      (∀ t, t < m.size → a.get? (m.i + t) = b.get? (m.j + t)) ∧
      ChainOK a b (m.i + m.size) (m.j + m.size) rest

/-- Tokens matched by `Equal` opcodes. -/
def equalSpec (ops : List Opcode) : Nat :=
  ((ops.filter (fun op => op.tag == DTag.equal)).map (fun op => op.i2 - op.i1)).sum

/-- Sum over the non-`Equal` opcodes of the larger of the two side widths:
what app.py's `diff_magnitude` actually charges as changed tokens. -/
def changedSpecMax (ops : List Opcode) : Nat :=
  ((ops.filter (fun op => !(op.tag == DTag.equal))).map
    (fun op => max (op.i2 - op.i1) (op.j2 - op.j1))).sum

/-- Modelled from the spec: "total token positions consumed by non-Equal
opcodes on either side (deletions plus insertions, double-counted for
Replace)". -/
def changedSpecDouble (ops : List Opcode) : Nat :=
  ((ops.filter (fun op => !(op.tag == DTag.equal))).map
    (fun op => (op.i2 - op.i1) + (op.j2 - op.j1))).sum

/-- The change records `summarize_changes` appends while handling one id. -/
def recsOf (old new : List (String × SecD)) (sid : String) : List ChangeRec :=
  match lookupId old sid, lookupId new sid with
  | some o, none => [removedRec sid o]
  | none, some n => [addedRec sid n]
  | some o, some n =>
    if pyStripS o.body = pyStripS n.body then []
    else
      if (diff_magnitude (pyStripS o.body) (pyStripS n.body)).1 < MIN_DIFF_TOKENS ∨
          (diff_magnitude (pyStripS o.body) (pyStripS n.body)).2 ≥ MIN_EQUAL_RATIO_Q then []
      else [modifiedRec sid o n (pyStripS o.body) (pyStripS n.body)]
  | none, none => []

/-- Modelled from the spec: the claimed final record order — appropriations
first, then the short-ids-before-long-ids-then-lexicographic key on id. -/
def recKeyLeSpec (r1 r2 : ChangeRec) : Prop :=
  (if r1.is_approp then 0 else 1) < (if r2.is_approp then (0 : Nat) else 1) ∨
    ((if r1.is_approp then (0 : Nat) else 1) = (if r2.is_approp then 0 else 1) ∧
      idKeyLe r1.sec_id r2.sec_id)

instance : DecidableRel recKeyLeSpec := fun x y => by
  unfold recKeyLeSpec
  infer_instance

/-- Two freshly added sections with ids "2" and "10" and neutral bodies. -/
def c4new : List (String × SecD) :=
  [("2", ⟨"2", "t2", "hello"⟩), ("10", ⟨"10", "t10", "walrus"⟩)]

/-- A document with a duplicated section number. -/
def c6raw : String := "SEC. 1. A\nxx\nSEC. 1. B\nyy"

/-- Input whose re-wrapping step creates a new " ," pair. -/
def c5x : String := "a\n, b."

def c8old : List (String × SecD) :=
  [("1", ⟨"1", "aaaa", "x"⟩), ("2", ⟨"2", "bbbb", "x"⟩), ("3", ⟨"3", "cccc", "x"⟩)]

def c8new : List (String × SecD) :=
  [("1", ⟨"1", "aaaa", "y"⟩), ("7", ⟨"7", "xxxx", "y"⟩), ("8", ⟨"8", "yyyy", "y"⟩)]

/-- High-overlap section maps (the realignment heuristic must not activate). -/
def c8wOld : List (String × SecD) := [("1", ⟨"1", "t", "x"⟩), ("2", ⟨"2", "u", "x"⟩)]

def c8wNew : List (String × SecD) := [("1", ⟨"1", "t", "y"⟩), ("2", ⟨"2", "u", "y"⟩)]

/-- Fold invariant preservation. -/
theorem foldlInv {α β : Type} (P : β → Prop) (f : β → α → β) :
    ∀ (l : List α) (init : β), P init → (∀ b x, x ∈ l → P b → P (f b x)) →
      P (l.foldl f init)
  | [], _, h, _ => h
  | x :: xs, init, h, hstep => by
    simp only [List.foldl_cons]
    exact foldlInv P f xs (f init x) (hstep init x (by simp) h)
      (fun b y hy hb => hstep b y (by simp [hy]) hb)

theorem matchLenGo_le {α : Type} [DecidableEq α] (a b : List α) (bhi : Nat) :
    ∀ fuel i j, matchLenGo a b bhi fuel i j ≤ fuel
  | 0, _, _ => Nat.le_refl 0
  | fuel + 1, i, j => by
    unfold matchLenGo
    split
    · have := matchLenGo_le a b bhi fuel (i + 1) (j + 1)
      omega
    · omega

theorem matchLenGo_le_b {α : Type} [DecidableEq α] (a b : List α) (bhi : Nat) :
    ∀ fuel i j, matchLenGo a b bhi fuel i j ≤ bhi - j
  | 0, _, _ => Nat.zero_le _
  | fuel + 1, i, j => by
    unfold matchLenGo
    split
    · have := matchLenGo_le_b a b bhi fuel (i + 1) (j + 1)
      rename_i h
      omega
    · omega

theorem matchLenGo_match {α : Type} [DecidableEq α] (a b : List α) (bhi : Nat) :
    ∀ fuel i j t, t < matchLenGo a b bhi fuel i j →
      a.get? (i + t) = b.get? (j + t)
  | 0, _, _, _, ht => absurd ht (by simp [matchLenGo])
  | fuel + 1, i, j, t, ht => by
    rw [matchLenGo] at ht
    split at ht
    · rename_i h
      match t with
      | 0 => simpa using h.2.2
      | t + 1 =>
        have := matchLenGo_match a b bhi fuel (i + 1) (j + 1) t (by omega)
        have e1 : i + (t + 1) = i + 1 + t := by omega
        have e2 : j + (t + 1) = j + 1 + t := by omega
        rw [e1, e2]
        exact this
    · omega

theorem matchLenGo_self {α : Type} [DecidableEq α] (a : List α) :
    ∀ (k i : Nat), i + k ≤ a.length → matchLenGo a a a.length k i i = k
  | 0, _, _ => rfl
  | k + 1, i, h => by
    rw [matchLenGo]
    have hi : i < a.length := by omega
    rw [if_pos]
    · rw [matchLenGo_self a k (i + 1) (by omega)]
    · refine ⟨hi, ?_, rfl⟩
      rw [List.get?_eq_getElem?, List.getElem?_eq_getElem hi]
      rfl

/-- The window/match invariant of `find_longest_match`. -/
theorem flm_inv {α : Type} [DecidableEq α] (a b : List α) (alo ahi blo bhi : Nat)
    (ha : alo ≤ ahi) (hb : blo ≤ bhi) :
    (fun m : BMatch => alo ≤ m.i ∧ blo ≤ m.j ∧ m.i + m.size ≤ ahi ∧
      m.j + m.size ≤ bhi ∧
      ∀ t, t < m.size → a.get? (m.i + t) = b.get? (m.j + t))
      (findLongestMatch a b alo ahi blo bhi) := by
  unfold findLongestMatch
  refine foldlInv
    (fun m : BMatch => alo ≤ m.i ∧ blo ≤ m.j ∧ m.i + m.size ≤ ahi ∧
      m.j + m.size ≤ bhi ∧
      ∀ t, t < m.size → a.get? (m.i + t) = b.get? (m.j + t)) _ _ _
    ⟨Nat.le_refl _, Nat.le_refl _, by dsimp only; omega, by dsimp only; omega, ?_⟩ ?_
  · intro t ht
    dsimp only at ht
    omega
  · intro best i hi hbest
    have hi' : alo ≤ i ∧ i < ahi := by
      have := List.mem_range'_1.mp hi
      omega
    refine foldlInv
      (fun m : BMatch => alo ≤ m.i ∧ blo ≤ m.j ∧ m.i + m.size ≤ ahi ∧
        m.j + m.size ≤ bhi ∧
        ∀ t, t < m.size → a.get? (m.i + t) = b.get? (m.j + t)) _ _ _ hbest ?_
    intro b' j hj hb'
    have hj' : blo ≤ j ∧ j < bhi := by
      have := List.mem_range'_1.mp hj
      omega
    unfold flmStep
    split
    · refine ⟨hi'.1, hj'.1, ?_, ?_, ?_⟩ <;> dsimp only
      · have := matchLenGo_le a b bhi (ahi - i) i j
        unfold matchLen
        omega
      · have := matchLenGo_le_b a b bhi (ahi - i) i j
        unfold matchLen
        omega
      · intro t ht
        exact matchLenGo_match a b bhi (ahi - i) i j t ht
    · exact hb'

theorem subchain_le {α : Type} (a b : List α) :
    ∀ (L : List BMatch) (i j ahi bhi : Nat),
      SubChain a b i j ahi bhi L → i ≤ ahi ∧ j ≤ bhi
  | [], _, _, _, _, h => h
  | m :: L, i, j, ahi, bhi, h => by
    obtain ⟨h1, h2, _, hrest⟩ := h
    have := subchain_le a b L _ _ ahi bhi hrest
    omega

theorem subchain_append {α : Type} (a b : List α) (m : BMatch) :
    ∀ (L1 L2 : List BMatch) (i j ahi bhi : Nat),
      SubChain a b i j m.i m.j L1 →
      (∀ t, t < m.size → a.get? (m.i + t) = b.get? (m.j + t)) →
      SubChain a b (m.i + m.size) (m.j + m.size) ahi bhi L2 →
      SubChain a b i j ahi bhi (L1 ++ m :: L2)
  | [], L2, i, j, ahi, bhi, h1, hm, h2 => ⟨h1.1, h1.2, hm, h2⟩
  | x :: L1, L2, i, j, ahi, bhi, h1, hm, h2 =>
    ⟨h1.1, h1.2.1, h1.2.2.1,
      subchain_append a b m L1 L2 _ _ ahi bhi h1.2.2.2 hm h2⟩

theorem mbGo_subchain {α : Type} [DecidableEq α] (a b : List α) :
    ∀ (fuel alo ahi blo bhi : Nat), alo ≤ ahi → blo ≤ bhi →
      SubChain a b alo blo ahi bhi (matchingBlocksGo a b fuel alo ahi blo bhi)
  | 0, _, _, _, _, ha, hb => ⟨ha, hb⟩
  | fuel + 1, alo, ahi, blo, bhi, ha, hb => by
    obtain ⟨f1, f2, f3, f4, f5⟩ := flm_inv a b alo ahi blo bhi ha hb
    rw [matchingBlocksGo]
    split
    · exact ⟨ha, hb⟩
    · exact subchain_append a b _ _ _ alo blo ahi bhi
        (mbGo_subchain a b fuel alo _ blo _ f1 f2) f5
        (mbGo_subchain a b fuel _ ahi _ bhi f3 f4)

theorem coalesceGo_ne_nil (la lb : Nat) :
    ∀ (blocks : List BMatch) (i1 j1 k1 : Nat),
      coalesceGo la lb i1 j1 k1 blocks ≠ []
  | [], i1, j1, k1 => by
    rw [coalesceGo]
    intro h
    rcases List.append_eq_nil.mp h with ⟨-, h2⟩
    exact List.cons_ne_nil _ _ h2
  | m :: rest, i1, j1, k1 => by
    rw [coalesceGo]
    split
    · exact coalesceGo_ne_nil la lb rest i1 j1 (k1 + m.size)
    · intro h
      rcases List.append_eq_nil.mp h with ⟨-, h2⟩
      exact coalesceGo_ne_nil la lb rest m.i m.j m.size h2

theorem chainOK_mono {α : Type} (a b : List α) (m : BMatch) (L : List BMatch)
    (i j i' j' : Nat) (h : ChainOK a b i' j' (m :: L)) (hi : i ≤ i') (hj : j ≤ j') :
    ChainOK a b i j (m :: L) :=
  ⟨Nat.le_trans hi h.1, Nat.le_trans hj h.2.1, h.2.2.1, h.2.2.2.1,
    h.2.2.2.2.1, h.2.2.2.2.2⟩

theorem chainOK_sentinel {α : Type} (a b : List α) (i j : Nat)
    (hi : i ≤ a.length) (hj : j ≤ b.length) :
    ChainOK a b i j [⟨a.length, b.length, 0⟩] := by
  refine ⟨hi, hj, ?_, ?_, ?_, ?_, ?_⟩ <;> dsimp only
  · omega
  · omega
  · intro t ht
    omega
  · omega
  · omega

theorem coalesce_chain {α : Type} (a b : List α) :
    ∀ (blocks : List BMatch) (i1 j1 k1 : Nat),
      (∀ t, t < k1 → a.get? (i1 + t) = b.get? (j1 + t)) →
      i1 + k1 ≤ a.length → j1 + k1 ≤ b.length →
      SubChain a b (i1 + k1) (j1 + k1) a.length b.length blocks →
      ChainOK a b i1 j1 (coalesceGo a.length b.length i1 j1 k1 blocks)
  | [], i1, j1, k1, hm, hla, hlb, _ => by
    rw [coalesceGo]
    by_cases hk : k1 = 0
    · subst hk
      simp only [ne_eq, not_true_eq_false, if_false, List.nil_append]
      exact chainOK_sentinel a b i1 j1 (by omega) (by omega)
    · simp only [ne_eq, hk, not_false_eq_true, if_true, List.cons_append, List.nil_append]
      refine ⟨Nat.le_refl _, Nat.le_refl _, ?_, ?_, ?_, ?_⟩ <;> dsimp only
      · exact hla
      · exact hlb
      · exact hm
      · exact chainOK_sentinel a b (i1 + k1) (j1 + k1) hla hlb
  | m :: rest, i1, j1, k1, hm, hla, hlb, hsub => by
    obtain ⟨hs1, hs2, hsm, hrest⟩ := hsub
    have hbnd := subchain_le a b rest _ _ _ _ hrest
    rw [coalesceGo]
    split
    · rename_i hadj
      obtain ⟨e1, e2⟩ := hadj
      apply coalesce_chain a b rest i1 j1 (k1 + m.size)
      · intro t ht
        by_cases htk : t < k1
        · exact hm t htk
        · have ea : i1 + t = m.i + (t - k1) := by omega
          have eb : j1 + t = m.j + (t - k1) := by omega
          rw [ea, eb]
          exact hsm (t - k1) (by omega)
      · omega
      · omega
      · have ea : i1 + (k1 + m.size) = m.i + m.size := by omega
        have eb : j1 + (k1 + m.size) = m.j + m.size := by omega
        rw [ea, eb]
        exact hrest
    · rename_i hadj
      have hrec : ChainOK a b m.i m.j
          (coalesceGo a.length b.length m.i m.j m.size rest) :=
        coalesce_chain a b rest m.i m.j m.size hsm (by omega) (by omega) hrest
      rcases hco : coalesceGo a.length b.length m.i m.j m.size rest with _ | ⟨x, xs⟩
      · exact absurd hco (coalesceGo_ne_nil a.length b.length rest m.i m.j m.size)
      · rw [hco] at hrec
        by_cases hk : k1 = 0
        · subst hk
          simp only [ne_eq, not_true_eq_false, if_false, List.nil_append, hco]
          exact chainOK_mono a b x xs i1 j1 m.i m.j hrec (by omega) (by omega)
        · simp only [ne_eq, hk, not_false_eq_true, if_true, List.cons_append,
            List.nil_append, hco]
          refine ⟨Nat.le_refl _, Nat.le_refl _, ?_, ?_, ?_, ?_⟩ <;> dsimp only
          · omega
          · omega
          · exact hm
          · exact chainOK_mono a b x xs (i1 + k1) (j1 + k1) m.i m.j hrec hs1 hs2

theorem matchingBlocks_chain {α : Type} [DecidableEq α] (a b : List α) :
    ChainOK a b 0 0 (matchingBlocks a b) := by
  unfold matchingBlocks
  apply coalesce_chain a b _ 0 0 0 (fun t ht => absurd ht (by omega))
    (by omega) (by omega)
  exact mbGo_subchain a b _ 0 a.length 0 b.length (by omega) (by omega)

theorem cmap_append {α β : Type} (f : α → List β) (l1 l2 : List α) :
    cmap f (l1 ++ l2) = cmap f l1 ++ cmap f l2 := by
  unfold cmap
  rw [List.map_append, List.flatten_append]

theorem cmap_nil {α β : Type} (f : α → List β) : cmap f [] = [] := rfl

theorem cmap_cons {α β : Type} (f : α → List β) (x : α) (l : List α) :
    cmap f (x :: l) = f x ++ cmap f l := by
  unfold cmap
  rw [List.map_cons, List.flatten_cons]

theorem beforeChars_append (s1 s2 : List RSpan) :
    beforeChars (s1 ++ s2) = beforeChars s1 ++ beforeChars s2 :=
  cmap_append _ s1 s2

theorem afterChars_append (s1 s2 : List RSpan) :
    afterChars (s1 ++ s2) = afterChars s1 ++ afterChars s2 :=
  cmap_append _ s1 s2

theorem segTok_nil (l : List (List Char)) (i : Nat) : segTok l i i = [] := by
  unfold segTok
  simp

theorem flatten_drop_split (l : List (List Char)) (i k : Nat) (h : i ≤ k) :
    (l.drop i).flatten = segTok l i k ++ (l.drop k).flatten := by
  unfold segTok
  conv_lhs => rw [← List.take_append_drop (k - i) (l.drop i)]
  rw [List.flatten_append, List.drop_drop]
  have e : i + (k - i) = k := by omega
  rw [e]

theorem segTok_eq_of_match (aT bT : List (List Char)) (i j sz : Nat)
    (h : ∀ t, t < sz → aT.get? (i + t) = bT.get? (j + t)) :
    segTok aT i (i + sz) = segTok bT j (j + sz) := by
  simp only [List.get?_eq_getElem?] at h
  unfold segTok
  have e1 : i + sz - i = sz := by omega
  have e2 : j + sz - j = sz := by omega
  rw [e1, e2]
  congr 1
  apply List.ext_get?
  intro n
  simp only [List.get?_eq_getElem?, List.getElem?_take, List.getElem?_drop]
  split
  · rename_i hn
    exact h n hn
  · rfl

/-- The round-trip invariant: over a sentinel-terminated chain, the spans
emitted by the opcode loop reassemble the two token suffixes. -/
theorem opcodes_roundtrip (aT bT : List (List Char)) :
    ∀ (blocks : List BMatch) (i j : Nat), ChainOK aT bT i j blocks →
      beforeChars (cmap (opSpan aT bT) (opcodesLoop i j blocks)) =
        (aT.drop i).flatten ∧
      afterChars (cmap (opSpan aT bT) (opcodesLoop i j blocks)) =
        (bT.drop j).flatten
  | [], i, j, h => by
    obtain ⟨h1, h2⟩ := h
    subst h1
    subst h2
    constructor <;> simp [opcodesLoop, beforeChars, afterChars, cmap]
  | m :: rest, i, j, h => by
    obtain ⟨h1, h2, h3, h4, hm, hrest⟩ := h
    obtain ⟨ihA, ihB⟩ := opcodes_roundtrip aT bT rest (m.i + m.size) (m.j + m.size) hrest
    have hsegA : (aT.drop i).flatten =
        segTok aT i m.i ++ (segTok aT m.i (m.i + m.size) ++
          (aT.drop (m.i + m.size)).flatten) := by
      rw [flatten_drop_split aT i m.i h1,
        flatten_drop_split aT m.i (m.i + m.size) (by omega)]
    have hsegB : (bT.drop j).flatten =
        segTok bT j m.j ++ (segTok bT m.j (m.j + m.size) ++
          (bT.drop (m.j + m.size)).flatten) := by
      rw [flatten_drop_split bT j m.j h2,
        flatten_drop_split bT m.j (m.j + m.size) (by omega)]
    have heq : segTok aT m.i (m.i + m.size) = segTok bT m.j (m.j + m.size) :=
      segTok_eq_of_match aT bT m.i m.j m.size hm
    have bcE : beforeChars (cmap (opSpan aT bT)
        (if m.size ≠ 0 then
          [⟨DTag.equal, m.i, m.i + m.size, m.j, m.j + m.size⟩] else [])) =
        segTok aT m.i (m.i + m.size) := by
      split
      · simp [beforeChars, cmap, opSpan, bSpanText]
      · rename_i h0
        have hz : m.size = 0 := by omega
        rw [hz, Nat.add_zero, segTok_nil]
        rfl
    have acE : afterChars (cmap (opSpan aT bT)
        (if m.size ≠ 0 then
          [⟨DTag.equal, m.i, m.i + m.size, m.j, m.j + m.size⟩] else [])) =
        segTok bT m.j (m.j + m.size) := by
      rw [← heq]
      split
      · simp [afterChars, cmap, opSpan, aSpanText]
      · rename_i h0
        have hz : m.size = 0 := by omega
        rw [hz, Nat.add_zero, segTok_nil]
        rfl
    rw [opcodesLoop, cmap_append, cmap_append]
    constructor
    · rw [beforeChars_append, beforeChars_append, bcE, ihA, hsegA,
        List.append_assoc]
      congr 1
      split_ifs with hc1 hc2 hc3
      · simp [beforeChars, cmap, opSpan, bSpanText]
      · simp [beforeChars, cmap, opSpan, bSpanText]
      · have hi : i = m.i := by omega
        rw [hi, segTok_nil]
        simp [beforeChars, cmap, opSpan, bSpanText]
      · have hi : i = m.i := by omega
        rw [hi, segTok_nil]
        rfl
    · rw [afterChars_append, afterChars_append, acE, ihB, hsegB,
        List.append_assoc]
      congr 1
      split_ifs with hc1 hc2 hc3
      · simp [afterChars, cmap, opSpan, aSpanText]
      · have hj : j = m.j := by omega
        rw [hj, segTok_nil]
        simp [afterChars, cmap, opSpan, aSpanText]
      · simp [afterChars, cmap, opSpan, aSpanText]
      · have hj : j = m.j := by omega
        rw [hj, segTok_nil]
        rfl

theorem tokenizeWs_flatten : ∀ l : List Char, (tokenizeWs l).flatten = l
  | [] => rfl
  | c :: cs => by
    have ih := tokenizeWs_flatten cs
    rcases hts : tokenizeWs cs with _ | ⟨t, ts⟩
    · rw [tokenizeWs, hts]
      rw [hts] at ih
      simp only [List.flatten_nil] at ih
      simp [← ih]
    · rcases t with _ | ⟨d, r⟩
      · rw [tokenizeWs, hts]
        rw [hts] at ih
        simp only [List.flatten_cons, List.nil_append] at ih
        dsimp only
        simp only [List.flatten_cons]
        rw [List.cons_append, List.nil_append, ih]
      · rw [tokenizeWs, hts]
        rw [hts] at ih
        simp only [List.flatten_cons] at ih
        dsimp only
        split
        · simp only [List.flatten_cons]
          rw [List.cons_append, ih]
        · simp only [List.flatten_cons]
          rw [List.cons_append, List.nil_append, ih]

/-- C1: for every pair of input strings, the redline produced by
`diff_words_preserve_ws` is a sequence of Equal/Deleted/Inserted spans whose
Equal+Deleted texts concatenate to `before` exactly and whose Equal+Inserted
texts concatenate to `after` exactly, each span carrying the exact original
substring including its whitespace. -/
theorem C1_redline_roundtrip (a b : String) :
    beforeChars (redlineSpans a b) = a.data ∧
    afterChars (redlineSpans a b) = b.data := by
  obtain ⟨hA, hB⟩ := opcodes_roundtrip (tokenize a) (tokenize b)
    (matchingBlocks (tokenize a) (tokenize b)) 0 0
    (matchingBlocks_chain (tokenize a) (tokenize b))
  rw [List.drop_zero] at hA hB
  unfold redlineSpans getOpcodes
  constructor
  · rw [hA]
    exact tokenizeWs_flatten a.data
  · rw [hB]
    exact tokenizeWs_flatten b.data

theorem flmStep_stay {α : Type} [DecidableEq α] (a : List α) (i j : Nat) :
    flmStep a a a.length a.length i ⟨0, 0, a.length⟩ j = ⟨0, 0, a.length⟩ := by
  have h1 := matchLenGo_le a a a.length (a.length - i) i j
  unfold flmStep matchLen
  rw [if_neg (by dsimp only; omega)]

theorem flm_empty {α : Type} [DecidableEq α] (a b : List α) (alo blo bhi : Nat) :
    findLongestMatch a b alo alo blo bhi = ⟨alo, blo, 0⟩ := by
  unfold findLongestMatch
  simp only [Nat.sub_self, List.range'_zero, List.foldl_nil]

theorem flm_self {α : Type} [DecidableEq α] (a : List α) (h : a.length ≠ 0) :
    findLongestMatch a a 0 a.length 0 a.length = ⟨0, 0, a.length⟩ := by
  obtain ⟨k, hk⟩ : ∃ k, a.length = k + 1 := ⟨a.length - 1, by omega⟩
  have hstay : ∀ (l : List Nat) (i : Nat),
      l.foldl (flmStep a a a.length a.length i) ⟨0, 0, a.length⟩ =
        ⟨0, 0, a.length⟩ :=
    fun l i => foldlInv (fun x => x = ⟨0, 0, a.length⟩) _ l _ rfl
      (fun b x _ hb => by rw [hb]; exact flmStep_stay a i x)
  have h1 : flmStep a a a.length a.length 0 ⟨0, 0, 0⟩ 0 = ⟨0, 0, a.length⟩ := by
    unfold flmStep matchLen
    rw [Nat.sub_zero, matchLenGo_self a a.length 0 (by omega)]
    rw [if_pos (by dsimp only; omega)]
  unfold findLongestMatch
  simp only [Nat.sub_zero, hk, List.range'_succ]
  rw [hk] at h1 hstay
  rw [List.foldl_cons]
  rw [List.foldl_cons, h1, hstay]
  exact foldlInv (fun x : BMatch => x = ⟨0, 0, k + 1⟩) _ _ _ rfl
    (fun b x _ hb => by rw [hb]; exact hstay _ x)

theorem mbGo_win_empty {α : Type} [DecidableEq α] (a b : List α) :
    ∀ (fuel alo blo bhi : Nat), matchingBlocksGo a b fuel alo alo blo bhi = []
  | 0, _, _, _ => rfl
  | fuel + 1, alo, blo, bhi => by
    rw [matchingBlocksGo]
    simp [flm_empty a b alo blo bhi]

theorem mbGo_self {α : Type} [DecidableEq α] (a : List α) (h : a.length ≠ 0) :
    matchingBlocksGo a a (a.length + a.length + 1) 0 a.length 0 a.length =
      [⟨0, 0, a.length⟩] := by
  rw [matchingBlocksGo]
  simp only [flm_self a h]
  rw [if_neg h]
  rw [mbGo_win_empty a a (a.length + a.length) 0 0 0]
  rw [Nat.zero_add]
  rw [mbGo_win_empty a a (a.length + a.length) a.length a.length a.length]
  rfl

theorem matchingBlocks_self {α : Type} [DecidableEq α] (a : List α)
    (h : a.length ≠ 0) :
    matchingBlocks a a = [⟨0, 0, a.length⟩, ⟨a.length, a.length, 0⟩] := by
  unfold matchingBlocks
  rw [mbGo_self a h]
  rw [coalesceGo]
  rw [if_pos (by dsimp only; omega)]
  rw [coalesceGo]
  rw [if_pos (by dsimp only; omega)]
  dsimp only
  rw [Nat.zero_add]
  rfl

theorem matchingBlocks_nil {α : Type} [DecidableEq α] :
    matchingBlocks ([] : List α) ([] : List α) = [⟨0, 0, 0⟩] := rfl

theorem getOpcodes_self {α : Type} [DecidableEq α] (a : List α)
    (h : a.length ≠ 0) :
    getOpcodes a a = [⟨DTag.equal, 0, a.length, 0, a.length⟩] := by
  unfold getOpcodes
  rw [matchingBlocks_self a h]
  rw [opcodesLoop]
  dsimp only
  rw [if_neg (by omega), if_neg (by omega), if_neg (by omega), if_pos h]
  rw [opcodesLoop]
  dsimp only
  rw [if_neg (by omega), if_neg (by omega), if_neg (by omega),
    if_neg (by omega)]
  simp [opcodesLoop]

theorem getOpcodes_nil {α : Type} [DecidableEq α] :
    getOpcodes ([] : List α) ([] : List α) = [] := rfl

theorem opcodesLoop_balance :
    ∀ (blocks : List BMatch) (i j : Nat) (op : Opcode),
      op ∈ opcodesLoop i j blocks → op.tag = DTag.equal →
      op.i2 - op.i1 = op.j2 - op.j1
  | [], _, _, _, hmem, _ => absurd hmem (by simp [opcodesLoop])
  | m :: rest, i, j, op, hmem, htag => by
    rw [opcodesLoop] at hmem
    simp only [List.mem_append] at hmem
    rcases hmem with (hg | he) | hr
    · split_ifs at hg with h1 h2 h3
      · simp only [List.mem_singleton] at hg
        subst hg
        exact absurd htag (by simp)
      · simp only [List.mem_singleton] at hg
        subst hg
        exact absurd htag (by simp)
      · simp only [List.mem_singleton] at hg
        subst hg
        exact absurd htag (by simp)
      · simp at hg
    · split_ifs at he with h1
      · simp only [List.mem_singleton] at he
        subst he
        dsimp only
        omega
      · simp at he
    · exact opcodesLoop_balance rest _ _ op hr htag

theorem magFold_acc :
    ∀ (ops : List Opcode) (acc : Nat × Nat),
      (∀ op ∈ ops, op.tag = DTag.equal → op.i2 - op.i1 = op.j2 - op.j1) →
      List.foldl (fun acc op =>
        (acc.1 + (if op.tag = DTag.equal then op.i2 - op.i1 else 0),
         acc.2 + max (op.i2 - op.i1) (op.j2 - op.j1))) acc ops =
      (acc.1 + equalSpec ops, acc.2 + (equalSpec ops + changedSpecMax ops))
  | [], acc, _ => by simp [equalSpec, changedSpecMax]
  | op :: ops, acc, hbal => by
    rw [List.foldl_cons]
    rw [magFold_acc ops _ (fun o ho ht => hbal o (by simp [ho]) ht)]
    by_cases ht : op.tag = DTag.equal
    · have hb := hbal op (by simp) ht
      rw [hb, Nat.max_self]
      simp only [equalSpec, changedSpecMax, List.filter_cons, ht, if_pos, beq_self_eq_true,
        Bool.not_true, if_true, List.map_cons, List.sum_cons, Bool.false_eq_true, if_false]
      refine Prod.ext ?_ ?_ <;> dsimp only <;> omega
    · have hbeq : (op.tag == DTag.equal) = false := by
        simp [ht]
      simp only [equalSpec, changedSpecMax, List.filter_cons, hbeq, Bool.not_false,
        Bool.false_eq_true, if_false, if_true, List.map_cons, List.sum_cons, ht]
      refine Prod.ext ?_ ?_ <;> dsimp only <;> omega

theorem magFold_spec (ops : List Opcode)
    (hbal : ∀ op ∈ ops, op.tag = DTag.equal → op.i2 - op.i1 = op.j2 - op.j1) :
    magFold ops = (equalSpec ops, equalSpec ops + changedSpecMax ops) := by
  unfold magFold
  rw [magFold_acc ops (0, 0) hbal]
  simp

/-- C2 (amended): app.py's `diff_magnitude` charges each non-Equal opcode the
larger of its two side widths (a Replace once at `max`, not double), and the
ratio is Equal tokens over the total of the per-opcode maxima, `1.0` when
that total is zero. -/
theorem C2_magnitude_amended (a b : String) :
    (diff_magnitude a b).1 =
      changedSpecMax (getOpcodes (tokenizeForRatio a) (tokenizeForRatio b)) ∧
    (diff_magnitude a b).2 =
      (if equalSpec (getOpcodes (tokenizeForRatio a) (tokenizeForRatio b)) +
          changedSpecMax (getOpcodes (tokenizeForRatio a) (tokenizeForRatio b)) = 0
       then (1 : ℚ)
       else (equalSpec (getOpcodes (tokenizeForRatio a) (tokenizeForRatio b)) : ℚ) /
         ((equalSpec (getOpcodes (tokenizeForRatio a) (tokenizeForRatio b)) : ℚ) +
          (changedSpecMax (getOpcodes (tokenizeForRatio a) (tokenizeForRatio b)) : ℚ))) := by
  have hbal : ∀ op ∈ getOpcodes (tokenizeForRatio a) (tokenizeForRatio b),
      op.tag = DTag.equal → op.i2 - op.i1 = op.j2 - op.j1 :=
    fun op h => opcodesLoop_balance _ 0 0 op h
  have hm := magFold_spec _ hbal
  simp only [diff_magnitude, hm]
  constructor
  · dsimp only
    omega
  · dsimp only
    split_ifs with h1
    · rfl
    · push_cast
      rfl

/-- C2 (counterexample): at `("x", "y")` the single Replace opcode consumes
one token on each side; double-counting (the claim) says 2, the code says 1. -/
theorem C2_magnitude_counterexample :
    (diff_magnitude "x" "y").1 ≠
      changedSpecDouble (getOpcodes (tokenizeForRatio "x") (tokenizeForRatio "y")) := by
  decide

theorem tokenizeForRatio_eq (a b : String) (h : wsCanonS a = wsCanonS b) :
    tokenizeForRatio a = tokenizeForRatio b := by
  unfold wsCanonS at h
  injection h with h2
  unfold tokenizeForRatio
  rw [h2]

theorem diff_magnitude_wsEq (a b : String) (h : wsCanonS a = wsCanonS b) :
    diff_magnitude a b = (0, 1) := by
  have ht := tokenizeForRatio_eq a b h
  simp only [diff_magnitude, ht]
  rcases hT : tokenizeForRatio b with _ | ⟨t, T⟩
  · rw [getOpcodes_nil]
    norm_num [magFold]
  · have hlen : (tokenizeForRatio b).length ≠ 0 := by
      rw [hT]
      simp
    rw [← hT, getOpcodes_self _ hlen]
    have hmf : magFold [⟨DTag.equal, 0, (tokenizeForRatio b).length, 0,
        (tokenizeForRatio b).length⟩] =
        ((tokenizeForRatio b).length, (tokenizeForRatio b).length) := by
      simp [magFold]
    rw [hmf]
    have hne : ((tokenizeForRatio b).length : ℚ) ≠ 0 := by
      exact_mod_cast hlen
    simp [hlen, div_self hne]

theorem dm_ab_ac : diff_magnitude "a b" "a c" = (1, 1/2) := by
  have h : diff_magnitude "a b" "a c" =
      (1, if (2 : Nat) = 0 then (1 : ℚ) else ((1 : Nat) : ℚ) / ((2 : Nat) : ℚ)) := rfl
  rw [h]
  norm_num

/-- C3 (amended): raising `min_diff_tokens`, or lowering `min_equal_ratio`,
can only move a record from Modified to Unchanged, never the reverse. -/
theorem C3_threshold_amended (A B : String) (t1 t2 : Nat) (r1 r2 : ℚ)
    (ht : t1 ≤ t2) (hr : r2 ≤ r1)
    (h : classify_pair A B t1 r1 = "Unchanged") :
    classify_pair A B t2 r2 = "Unchanged" := by
  unfold classify_pair at h ⊢
  by_cases hAB : A = B
  · rw [if_pos hAB]
  · rw [if_neg hAB] at h ⊢
    by_cases hc : (diff_magnitude A B).1 < t1 ∨ (diff_magnitude A B).2 ≥ r1
    · rw [if_pos (hc.elim (fun hl => Or.inl (by omega))
        (fun hg => Or.inr (le_trans hr hg)))]
    · rw [if_neg hc] at h
      exact absurd h (by decide)

theorem C3_threshold_witness :
    (1 : Nat) ≤ 2 ∧ (0 : ℚ) ≤ 1 ∧ classify_pair "a" "a" 1 1 = "Unchanged" ∧
      classify_pair "a" "a" 2 0 = "Unchanged" :=
  ⟨by decide, zero_le_one, rfl,
    C3_threshold_amended "a" "a" 1 2 1 0 (by decide) zero_le_one rfl⟩

/-- C3 (counterexample): with bodies "a b" / "a c", `changed = 1` and
`equal_ratio = 1/2`; at thresholds `(1, 1/2)` the pair is Unchanged, and
raising `min_equal_ratio` to `3/4` flips it to Modified. -/
theorem C3_threshold_counterexample :
    classify_pair "a b" "a c" 1 (1/2) = "Unchanged" ∧
    classify_pair "a b" "a c" 1 (3/4) = "Modified" ∧ ((1 : ℚ)/2 ≤ 3/4) := by
  refine ⟨?_, ?_, by norm_num⟩
  · unfold classify_pair
    rw [if_neg (by decide), dm_ab_ac]
    rw [if_pos]
    exact Or.inr (by norm_num)
  · unfold classify_pair
    rw [if_neg (by decide), dm_ab_ac]
    rw [if_neg]
    push_neg
    exact ⟨by norm_num, by norm_num⟩

theorem char_toNat_inj {a b : Char} (h : a.toNat = b.toNat) : a = b :=
  Char.ext (UInt32.toNat.inj h)

theorem lexLeC_total : ∀ x y : List Char, lexLeC x y = true ∨ lexLeC y x = true
  | [], _ => Or.inl rfl
  | _ :: _, [] => Or.inr rfl
  | a :: as, b :: bs => by
    unfold lexLeC
    by_cases hab : a = b
    · subst hab
      simp only [if_pos rfl]
      exact lexLeC_total as bs
    · have hba : b ≠ a := fun h => hab h.symm
      rw [if_neg hab, if_neg hba]
      rcases Nat.lt_trichotomy a.toNat b.toNat with h | h | h
      · exact Or.inl (by simpa using h)
      · exact absurd (char_toNat_inj h) hab
      · exact Or.inr (by simpa using h)

theorem lexLeC_trans :
    ∀ x y z : List Char, lexLeC x y = true → lexLeC y z = true → lexLeC x z = true
  | [], _, _, _, _ => rfl
  | _ :: _, [], _, h1, _ => by simp [lexLeC] at h1
  | _ :: _, _ :: _, [], _, h2 => by simp [lexLeC] at h2
  | a :: as, b :: bs, c :: cs, h1, h2 => by
    unfold lexLeC at h1 h2 ⊢
    by_cases hab : a = b
    · subst hab
      rw [if_pos rfl] at h1
      by_cases hac : a = c
      · subst hac
        rw [if_pos rfl] at h2 ⊢
        exact lexLeC_trans as bs cs h1 h2
      · rw [if_neg hac] at h2 ⊢
        exact h2
    · rw [if_neg hab] at h1
      have h1' : a.toNat < b.toNat := by simpa using h1
      by_cases hbc : b = c
      · subst hbc
        rw [if_neg hab]
        exact h1
      · rw [if_neg hbc] at h2
        have h2' : b.toNat < c.toNat := by simpa using h2
        have hac : a ≠ c := by
          intro h
          subst h
          omega
        rw [if_neg hac]
        simp
        omega

instance : IsTotal ChangeRec recKeyLe :=
  ⟨fun r1 r2 => by
    unfold recKeyLe
    rcases Nat.lt_trichotomy (if r1.is_approp then 0 else 1)
      (if r2.is_approp then (0 : Nat) else 1) with h | h | h
    · exact Or.inl (Or.inl h)
    · rcases lexLeC_total r1.sec_id.data r2.sec_id.data with hl | hl
      · exact Or.inl (Or.inr ⟨h, hl⟩)
      · exact Or.inr (Or.inr ⟨h.symm, hl⟩)
    · exact Or.inr (Or.inl h)⟩

instance : IsTrans ChangeRec recKeyLe :=
  ⟨fun r1 r2 r3 h12 h23 => by
    unfold recKeyLe at h12 h23 ⊢
    rcases h12 with h12 | ⟨e12, l12⟩
    · rcases h23 with h23 | ⟨e23, _⟩
      · exact Or.inl (by omega)
      · exact Or.inl (by omega)
    · rcases h23 with h23 | ⟨e23, l23⟩
      · exact Or.inl (by omega)
      · exact Or.inr ⟨by omega, lexLeC_trans _ _ _ l12 l23⟩⟩

/-- C4 (amended): the Modified/Added/Removed record list is ordered with
appropriations-flagged records first, and within the two groups by the plain
code-point lexicographic order on section id — not by the short-ids-first key
used for `all_ids`. -/
theorem C4_order_amended (old new : List (String × SecD)) :
    List.Sorted recKeyLe ((summarize_changes old new).1) := by
  unfold summarize_changes
  exact List.sorted_insertionSort recKeyLe _

/-- C4 (counterexample):two freshly added, non-appropriations sections with ids
"2" and "10" come out in the order ["10", "2"] (plain lexicographic), although
the short-ids-first key orders "2" strictly before "10". -/
theorem C4_order_counterexample :
    ((summarize_changes [] c4new).1).map ChangeRec.sec_id = ["10", "2"] ∧
    ((summarize_changes [] c4new).1).map ChangeRec.is_approp = [false, false] ∧
    idKeyLe "2" "10" ∧ ¬ idKeyLe "10" "2" := by
  refine ⟨by decide, by decide, by decide, by decide⟩

/-- C9 (amended): `categorize_change` is pure and depends only on the
lowercased space-joined concatenation of its two arguments. -/
theorem C9_categorize_amended (before after before' after' : String)
    (h : lowerConcat before after = lowerConcat before' after') :
    categorize_change before after = categorize_change before' after' := by
  unfold categorize_change
  rw [h]

theorem C9_categorize_witness :
    lowerConcat "Shall" "x" = lowerConcat "shall" "x" ∧
    categorize_change "Shall" "x" = categorize_change "shall" "x" :=
  ⟨by decide, C9_categorize_amended "Shall" "x" "shall" "x" (by decide)⟩

/-- C9 (counterexample): the keyword "not later than" spans the junction, so
swapping the arguments changes the tag set. -/
theorem C9_categorize_counterexample :
    categorize_change "not later" "than" ≠ categorize_change "than" "not later" := by
  decide

/-- C5: `sanitize_text` is not idempotent — re-wrapping joins a line that
starts with a comma after its predecessor, creating a new " ," pair that only
a second pass removes. -/
theorem C5_sanitize_not_idempotent :
    sanitize_text c5x = "a , b." ∧
    sanitize_text (sanitize_text c5x) = "a, b." ∧
    sanitize_text (sanitize_text c5x) ≠ sanitize_text c5x := by
  refine ⟨by decide, by decide, by decide⟩

/-- C6: a document repeating the header "SEC. 1." yields two sections with
the same id, so the ids of `split_sections` are not pairwise distinct. -/
theorem C6_duplicate_ids :
    (split_sections c6raw).map SecD.sec_id = ["1", "1"] ∧
    ¬ ((split_sections c6raw).map SecD.sec_id).Nodup := by
  refine ⟨by decide, by decide⟩

/-- C7: the stats fields of `summarize_changes` tally the partitions exactly. -/
theorem C7_stats_reconciliation (old new : List (String × SecD)) :
    (summarize_changes old new).2.1.added + (summarize_changes old new).2.1.removed +
      (summarize_changes old new).2.1.modified = ((summarize_changes old new).1).length ∧
    (summarize_changes old new).2.1.unchanged = ((summarize_changes old new).2.2).length ∧
    (summarize_changes old new).2.1.added =
      ((summarize_changes old new).1).countP (fun r => r.status == "Added") ∧
    (summarize_changes old new).2.1.removed =
      ((summarize_changes old new).1).countP (fun r => r.status == "Removed") ∧
    (summarize_changes old new).2.1.modified =
      ((summarize_changes old new).1).countP (fun r => r.status == "Modified") := by
  have key := foldlInv
    (fun acc : List ChangeRec × Stats × List UnchRec =>
      acc.2.1.added = acc.1.countP (fun r => r.status == "Added") ∧
      acc.2.1.removed = acc.1.countP (fun r => r.status == "Removed") ∧
      acc.2.1.modified = acc.1.countP (fun r => r.status == "Modified") ∧
      acc.2.1.unchanged = acc.2.2.length ∧
      acc.1.length = acc.2.1.added + acc.2.1.removed + acc.2.1.modified)
    (stepSummarize old new) (allIdsOf old new) ([], ⟨0, 0, 0, 0⟩, [])
    ⟨rfl, rfl, rfl, rfl, rfl⟩
    (by
      intro acc sid _ hprev
      obtain ⟨hA, hR, hM, hU, hL⟩ := hprev
      unfold stepSummarize
      rcases h1 : lookupId old sid with _ | o <;>
        rcases h2 : lookupId new sid with _ | n <;> dsimp only
      · exact ⟨hA, hR, hM, hU, hL⟩
      · refine ⟨?_, ?_, ?_, hU, ?_⟩ <;>
          simp [List.countP_append, List.countP_cons, hA, hR, hM, hL,
            show (addedRec sid n).status = "Added" from rfl] <;> try omega
      · refine ⟨?_, ?_, ?_, hU, ?_⟩ <;>
          simp [List.countP_append, List.countP_cons, hA, hR, hM, hL,
            show (removedRec sid o).status = "Removed" from rfl] <;> try omega
      · split_ifs
        · exact ⟨hA, hR, hM, by simp [hU], hL⟩
        · exact ⟨hA, hR, hM, by simp [hU], hL⟩
        · refine ⟨?_, ?_, ?_, hU, ?_⟩ <;>
            simp [List.countP_append, List.countP_cons, hA, hR, hM, hL,
              show ∀ A B, (modifiedRec sid o n A B).status = "Modified"
                from fun A B => rfl] <;> try omega)
  obtain ⟨hA, hR, hM, hU, hL⟩ := key
  have hperm := List.perm_insertionSort recKeyLe
    (((allIdsOf old new).foldl (stepSummarize old new) ([], ⟨0, 0, 0, 0⟩, [])).1)
  unfold summarize_changes
  dsimp only
  refine ⟨?_, hU, ?_, ?_, ?_⟩
  · rw [hperm.length_eq]
    omega
  · rw [hperm.countP_eq]
    exact hA
  · rw [hperm.countP_eq]
    exact hR
  · rw [hperm.countP_eq]
    exact hM

theorem step_changes (old new : List (String × SecD))
    (acc : List ChangeRec × Stats × List UnchRec) (sid : String) :
    (stepSummarize old new acc sid).1 = acc.1 ++ recsOf old new sid := by
  unfold stepSummarize recsOf
  rcases h1 : lookupId old sid with _ | o <;>
    rcases h2 : lookupId new sid with _ | n <;> dsimp only
  · simp
  · split_ifs <;> simp

theorem fold_changes (old new : List (String × SecD)) :
    ∀ (ids : List String) (acc : List ChangeRec × Stats × List UnchRec),
      ((ids.foldl (stepSummarize old new) acc).1) = acc.1 ++ cmap (recsOf old new) ids
  | [], acc => by simp [cmap]
  | sid :: ids, acc => by
    rw [List.foldl_cons]
    rw [fold_changes old new ids (stepSummarize old new acc sid)]
    rw [step_changes, cmap_cons, List.append_assoc]

theorem recsOf_sec_id (old new : List (String × SecD)) (sid : String) (r : ChangeRec)
    (h : r ∈ recsOf old new sid) : r.sec_id = sid := by
  unfold recsOf at h
  rcases h1 : lookupId old sid with _ | o <;>
    rcases h2 : lookupId new sid with _ | n <;> rw [h1, h2] at h <;> dsimp only at h
  · simp at h
  · simp only [List.mem_singleton] at h
    subst h
    rfl
  · simp only [List.mem_singleton] at h
    subst h
    rfl
  · split_ifs at h
    · simp at h
    · simp at h
    · simp only [List.mem_singleton] at h
      subst h
      rfl

theorem mem_cmap {α β : Type} (f : α → List β) (l : List α) (y : β) :
    y ∈ cmap f l ↔ ∃ x ∈ l, y ∈ f x := by
  unfold cmap
  simp [List.mem_flatten, List.mem_map]

theorem dropWhile_head_false (p : Char → Bool) :
    ∀ (l : List Char) (c : Char) (cs : List Char),
      l.dropWhile p = c :: cs → p c = false
  | [], _, _, h => by simp at h
  | d :: ds, c, cs, h => by
    rw [List.dropWhile_cons] at h
    split_ifs at h with hd
    · exact dropWhile_head_false p ds c cs h
    · rw [List.cons.injEq] at h
      obtain ⟨h1, -⟩ := h
      subst h1
      simpa using hd

theorem dropWhile_idem (p : Char → Bool) (l : List Char) :
    (l.dropWhile p).dropWhile p = l.dropWhile p := by
  rcases h : l.dropWhile p with _ | ⟨c, cs⟩
  · rfl
  · rw [List.dropWhile_cons, dropWhile_head_false p l c cs h]
    simp

theorem trimRight_prefix (l : List Char) : trimRightWs l <+: l := by
  have hsuf := @List.dropWhile_suffix Char l.reverse isPyWs
  have : (trimRightWs l).reverse <:+ l.reverse := by
    unfold trimRightWs
    rw [List.reverse_reverse]
    exact hsuf
  exact List.reverse_suffix.mp this

theorem trimLeft_of_left_stripped (l : List Char) (h : trimLeftWs l = l) :
    trimLeftWs (trimRightWs l) = trimRightWs l := by
  obtain ⟨t, ht⟩ := trimRight_prefix l
  rcases htr : trimRightWs l with _ | ⟨c, cs⟩
  · rfl
  · rw [htr] at ht
    have hl : l = c :: (cs ++ t) := by
      rw [← ht]
      simp
  -- the head of l is not whitespace, because `trimLeftWs l = l`
    have hfalse : isPyWs c = false := by
      have h' := h
      rw [hl] at h'
      unfold trimLeftWs at h'
      rw [List.dropWhile_cons] at h'
      split_ifs at h' with hc
      · have hle := (@List.dropWhile_suffix Char (cs ++ t) isPyWs).length_le
        rw [h', List.length_cons] at hle
        omega
      · simpa using hc
    unfold trimLeftWs
    rw [List.dropWhile_cons, hfalse]
    simp

theorem trimRight_idem (l : List Char) :
    trimRightWs (trimRightWs l) = trimRightWs l := by
  unfold trimRightWs
  rw [List.reverse_reverse, dropWhile_idem]

theorem pyStrip_idem (l : List Char) : pyStrip (pyStrip l) = pyStrip l := by
  unfold pyStrip
  rw [trimLeft_of_left_stripped (trimLeftWs l) (dropWhile_idem isPyWs l),
    trimRight_idem]

theorem wsCanonS_strip (s : String) : wsCanonS (pyStripS s) = wsCanonS s := by
  unfold wsCanonS pyStripS wsCanon
  rw [show (String.mk (pyStrip s.data)).data = pyStrip s.data from rfl]
  rw [pyStrip_idem]

theorem recsOf_wsEq_nil (old new : List (String × SecD)) (sid : String)
    (o n : SecD) (ho : lookupId old sid = some o) (hn : lookupId new sid = some n)
    (hws : wsCanonS o.body = wsCanonS n.body) :
    recsOf old new sid = [] := by
  have hdm : diff_magnitude (pyStripS o.body) (pyStripS n.body) = (0, 1) :=
    diff_magnitude_wsEq _ _ (by rw [wsCanonS_strip, wsCanonS_strip, hws])
  unfold recsOf
  rw [ho, hn]
  dsimp only
  by_cases he : pyStripS o.body = pyStripS n.body
  · rw [if_pos he]
  · rw [if_neg he, if_pos]
    exact Or.inl (by rw [hdm]; decide)

/-- C10: bodies equal after trim-and-collapse of whitespace give
`diff_magnitude = (0, 1.0)`, and such a section pair is never reported as
Modified by `summarize_changes`. -/
theorem C10_ws_only_never_modified :
    (∀ a b : String, wsCanonS a = wsCanonS b → diff_magnitude a b = (0, 1)) ∧
    (∀ (old new : List (String × SecD)) (sid : String) (o n : SecD),
      lookupId old sid = some o → lookupId new sid = some n →
      wsCanonS o.body = wsCanonS n.body →
      ∀ r ∈ (summarize_changes old new).1,
        ¬(r.sec_id = sid ∧ r.status = "Modified")) := by
  refine ⟨diff_magnitude_wsEq, ?_⟩
  intro old new sid o n ho hn hws r hr hcon
  obtain ⟨hsid, -⟩ := hcon
  unfold summarize_changes at hr
  dsimp only at hr
  rw [List.mem_insertionSort] at hr
  rw [fold_changes old new (allIdsOf old new) ([], ⟨0, 0, 0, 0⟩, [])] at hr
  simp only [List.nil_append] at hr
  rw [mem_cmap] at hr
  obtain ⟨sid', _, hrmem⟩ := hr
  have hsid2 := recsOf_sec_id old new sid' r hrmem
  have hss : sid' = sid := by rw [← hsid2, hsid]
  rw [hss] at hrmem
  rw [recsOf_wsEq_nil old new sid o n ho hn hws] at hrmem
  simp at hrmem

theorem C10_ws_witness :
    (wsCanonS "x " = wsCanonS " x" ∧ diff_magnitude "x " " x" = (0, 1)) ∧
    (∀ r ∈ (summarize_changes [("1", ⟨"1", "t", "x "⟩)] [("1", ⟨"1", "t", " x"⟩)]).1,
      ¬(r.sec_id = "1" ∧ r.status = "Modified")) :=
  ⟨⟨by decide, C10_ws_only_never_modified.1 "x " " x" (by decide)⟩,
    C10_ws_only_never_modified.2 [("1", ⟨"1", "t", "x "⟩)] [("1", ⟨"1", "t", " x"⟩)]
      "1" ⟨"1", "t", "x "⟩ ⟨"1", "t", " x"⟩ (by decide) (by decide) (by decide)⟩

theorem r_aa : smRatioS "aaaa" "aaaa" = 1 := by
  have h : smRatioS "aaaa" "aaaa" =
      (if (8 : Nat) = 0 then (1 : ℚ)
       else (2 * ((4 : Nat) : ℚ)) / (((4 : Nat) : ℚ) + ((4 : Nat) : ℚ))) := rfl
  rw [h]
  norm_num

theorem r_ax : smRatioS "aaaa" "xxxx" = 0 := by
  have h : smRatioS "aaaa" "xxxx" =
      (if (8 : Nat) = 0 then (1 : ℚ)
       else (2 * ((0 : Nat) : ℚ)) / (((4 : Nat) : ℚ) + ((4 : Nat) : ℚ))) := rfl
  rw [h]
  norm_num

theorem r_ay : smRatioS "aaaa" "yyyy" = 0 := by
  have h : smRatioS "aaaa" "yyyy" =
      (if (8 : Nat) = 0 then (1 : ℚ)
       else (2 * ((0 : Nat) : ℚ)) / (((4 : Nat) : ℚ) + ((4 : Nat) : ℚ))) := rfl
  rw [h]
  norm_num

theorem r_bx : smRatioS "bbbb" "xxxx" = 0 := by
  have h : smRatioS "bbbb" "xxxx" =
      (if (8 : Nat) = 0 then (1 : ℚ)
       else (2 * ((0 : Nat) : ℚ)) / (((4 : Nat) : ℚ) + ((4 : Nat) : ℚ))) := rfl
  rw [h]
  norm_num

theorem r_by : smRatioS "bbbb" "yyyy" = 0 := by
  have h : smRatioS "bbbb" "yyyy" =
      (if (8 : Nat) = 0 then (1 : ℚ)
       else (2 * ((0 : Nat) : ℚ)) / (((4 : Nat) : ℚ) + ((4 : Nat) : ℚ))) := rfl
  rw [h]
  norm_num

theorem r_cx : smRatioS "cccc" "xxxx" = 0 := by
  have h : smRatioS "cccc" "xxxx" =
      (if (8 : Nat) = 0 then (1 : ℚ)
       else (2 * ((0 : Nat) : ℚ)) / (((4 : Nat) : ℚ) + ((4 : Nat) : ℚ))) := rfl
  rw [h]
  norm_num

theorem r_cy : smRatioS "cccc" "yyyy" = 0 := by
  have h : smRatioS "cccc" "yyyy" =
      (if (8 : Nat) = 0 then (1 : ℚ)
       else (2 * ((0 : Nat) : ℚ)) / (((4 : Nat) : ℚ) + ((4 : Nat) : ℚ))) := rfl
  rw [h]
  norm_num

theorem c8best1 : renumBest [] "aaaa" c8new = (some "1", 1) := by
  simp only [renumBest, c8new, List.foldl_cons, List.foldl_nil]
  norm_num [r_aa, r_ax, r_ay]

theorem c8best2 : renumBest ["1"] "bbbb" c8new = (none, 0) := by
  simp only [renumBest, c8new, List.foldl_cons, List.foldl_nil]
  norm_num [r_bx, r_by]

theorem c8best3 : renumBest ["1"] "cccc" c8new = (none, 0) := by
  simp only [renumBest, c8new, List.foldl_cons, List.foldl_nil]
  norm_num [r_cx, r_cy]

theorem c8map : build_renumber_map c8old c8new = [("1", "1")] := by
  have e1 : (((c8old.map Prod.fst).filter
      (fun x => x ∈ c8new.map Prod.fst)).dedup.length) = 1 := by decide
  have e2 : (min (c8old.map Prod.fst).length (c8new.map Prod.fst).length) = 3 := by
    decide
  simp only [build_renumber_map, e1, e2]
  rw [if_neg (by norm_num)]
  simp only [c8old, List.foldl_cons, List.foldl_nil, renumStep]
  rw [c8best1]
  norm_num [c8best2, c8best3]

theorem C8_renumber_counterexample :
    build_renumber_map c8old c8new = [("1", "1")] ∧
    "1" ∈ c8old.map Prod.fst ∧ "1" ∈ c8new.map Prod.fst :=
  ⟨c8map, by decide, by decide⟩

theorem renumBest_spec (used : List String) (t : String)
    (new : List (String × SecD)) :
    (renumBest used t new).1 = none ∨
    ∃ np ∈ new, (renumBest used t new).1 = some np.1 ∧
      (renumBest used t new).2 = smRatioS t np.2.title ∧ np.1 ∉ used := by
  unfold renumBest
  refine foldlInv
    (fun b : Option String × ℚ => b.1 = none ∨
      ∃ np ∈ new, b.1 = some np.1 ∧ b.2 = smRatioS t np.2.title ∧ np.1 ∉ used)
    _ new (none, 0) (Or.inl rfl) ?_
  intro b np hmem hb
  dsimp only
  split_ifs with h1 h2
  · exact hb
  · exact Or.inr ⟨np, hmem, rfl, rfl, h1⟩
  · exact hb

theorem renumFold_spec (old new : List (String × SecD)) :
    (fun acc : List (String × String) × List String =>
      acc.1.map Prod.snd = acc.2 ∧ acc.2.Nodup ∧
      ∀ p ∈ acc.1, ∃ osec nsec, (p.1, osec) ∈ old ∧ (p.2, nsec) ∈ new ∧
        smRatioS osec.title nsec.title ≥ 9 / 10)
      (old.foldl (renumStep new) ([], [])) := by
  refine foldlInv
    (fun acc : List (String × String) × List String =>
      acc.1.map Prod.snd = acc.2 ∧ acc.2.Nodup ∧
      ∀ p ∈ acc.1, ∃ osec nsec, (p.1, osec) ∈ old ∧ (p.2, nsec) ∈ new ∧
        smRatioS osec.title nsec.title ≥ 9 / 10)
    (renumStep new) old ([], []) ⟨rfl, List.nodup_nil, by simp⟩ ?_
  intro acc op hop hacc
  obtain ⟨hmap, hnd, hall⟩ := hacc
  unfold renumStep
  dsimp only
  split_ifs with hge
  · rcases hspec : (renumBest acc.2 op.2.title new).1 with _ | nid <;> dsimp only
    · exact ⟨hmap, hnd, hall⟩
    · rcases renumBest_spec acc.2 op.2.title new with hn | ⟨np, hnp, he1, he2, hnu⟩
      · rw [hspec] at hn
        cases hn
      · rw [hspec] at he1
        have hnid : nid = np.1 := by injection he1
        subst hnid
        refine ⟨by simp [hmap], ?_, ?_⟩
        · rw [List.nodup_append]
          exact ⟨hnd, List.nodup_singleton _, by simp [hnu]⟩
        · intro p hp
          rcases List.mem_append.mp hp with hp | hp
          · exact hall p hp
          · simp only [List.mem_singleton] at hp
            subst hp
            refine ⟨op.2, np.2, ?_, ?_, ?_⟩
            · dsimp only
              simpa using hop
            · dsimp only
              simpa using hnp
            · dsimp only
              rw [← he2]
              exact hge
  · exact ⟨hmap, hnd, hall⟩

/-- C8 (amended): the map is empty when the id overlap is at least half the
smaller side; every mapped pair scores at least 0.90 on the title ratio and
pairs ids present in old/new; no new id is used twice. The scoring, however,
considers all old sections — not only unmatched ones. -/
theorem C8_renumber_amended (old new : List (String × SecD)) :
    ((((old.map Prod.fst).filter (fun x => x ∈ new.map Prod.fst)).dedup.length : ℚ) ≥
        (1 / 2) * ((min (old.map Prod.fst).length (new.map Prod.fst).length : Nat) : ℚ) →
      build_renumber_map old new = []) ∧
    ((build_renumber_map old new).map Prod.snd).Nodup ∧
    (∀ p ∈ build_renumber_map old new,
      ∃ osec nsec, (p.1, osec) ∈ old ∧ (p.2, nsec) ∈ new ∧
        smRatioS osec.title nsec.title ≥ 9 / 10) := by
  obtain ⟨hmap, hnd, hall⟩ := renumFold_spec old new
  unfold build_renumber_map
  dsimp only
  split_ifs with hact
  · exact ⟨fun _ => rfl, List.nodup_nil, by simp⟩
  · refine ⟨fun h => absurd h hact, ?_, hall⟩
    rw [hmap]
    exact hnd

theorem C8_renumber_witness :
    ((((c8wOld.map Prod.fst).filter
        (fun x => x ∈ c8wNew.map Prod.fst)).dedup.length : ℚ) ≥
      (1 / 2) * ((min (c8wOld.map Prod.fst).length
        (c8wNew.map Prod.fst).length : Nat) : ℚ)) ∧
    build_renumber_map c8wOld c8wNew = [] := by
  have hhyp : ((((c8wOld.map Prod.fst).filter
      (fun x => x ∈ c8wNew.map Prod.fst)).dedup.length : ℚ) ≥
      (1 / 2) * ((min (c8wOld.map Prod.fst).length
        (c8wNew.map Prod.fst).length : Nat) : ℚ)) := by
    have h2 : (((c8wOld.map Prod.fst).filter
        (fun x => x ∈ c8wNew.map Prod.fst)).dedup.length) = 2 := by decide
    have hmin : (min (c8wOld.map Prod.fst).length
        (c8wNew.map Prod.fst).length) = 2 := by decide
    rw [h2, hmin]
    norm_num
  exact ⟨hhyp, (C8_renumber_amended c8wOld c8wNew).1 hhyp⟩
